import Mathlib

/-!
Verification development for the `fasem` notebooks (`simple_fitting.ipynb`,
`bilayer_analysis.ipynb`).  The notebooks drive an external reflectometry
fitting library; the specification describes, at design level, the fitting
core those notebooks rely on.  This file gives a shallow embedding of that
core, modelled from the specification: the Parameter arena and shared-handle
data model, layers and structures, the optical-matrix reflectivity engine,
objective / likelihood computations, the differential-evolution optimizer,
and the ensemble MCMC sampler, together with proofs of the behavioural
properties the notebooks depend on.

Machine `float64` values are modelled as `ℚ` (for the mutable data model)
and `ℝ` (for the analytic reflectivity / likelihood computations).
-/

namespace Fasem

/-- Modelled from the spec: `Parameter: {value: float64, bounds: (low, high)
or unbounded, vary: bool, name: string}`, plus a user-supplied log-prior
penalty contribution (the spec's "user-supplied log-prior penalty terms").
The value is modelled as `ℚ`. -/
structure Parameter where
  value : ℚ
  bounds : Option (ℚ × ℚ)
  vary : Bool
  name : String
  logpTerm : ℚ
deriving DecidableEq, Repr

instance : Inhabited Parameter := ⟨⟨0, none, false, "", 0⟩⟩

/-- Modelled from the spec (design note §9): Parameters are shared by
reference across Structures; this is realised as an index into a central
Parameter arena, Structures holding indices rather than copies. -/
abbrev ParamId := Nat

/-- Modelled from the spec: the central Parameter arena holding every
`Parameter`; mutation happens here, and is observed by every Structure
holding the index. -/
abbrev Arena := List Parameter

/-- Read the `Parameter` stored at index `i` of the arena. -/
def Arena.paramAt (a : Arena) (i : ParamId) : Parameter :=
  a.getD i default

/-- Read the current value of the parameter with identity `i`. -/
def Arena.valueOf (a : Arena) (i : ParamId) : ℚ :=
  (a.paramAt i).value

/-- Mutate the value of the parameter with identity `i` in place (the
arena-level rendering of `Parameter.value = v`). -/
def Arena.setValue (a : Arena) (i : ParamId) (v : ℚ) : Arena :=
  a.set i { a.paramAt i with value := v }

/-- Whether the parameter with identity `i` is flagged as varying. -/
def Arena.isVarying (a : Arena) (i : ParamId) : Bool :=
  (a.paramAt i).vary

/-- Modelled from the spec (§7 error taxonomy): `ValidationError` for
malformed configuration, `NumericalError` for non-finite forward-model
output, `FitFailure` for an exhausted optimizer budget. -/
inductive FitError where
  | validation (msg : String)
  | numerical (msg : String)
  | fitFailure (msg : String)
deriving DecidableEq, Repr

/-- Modelled from the spec: Parameter construction. "Any invalid Parameter
bound configuration (low > high) must be rejected at Parameter-construction
time, not deferred to fit time": the constructor validates the bounds and
returns a `ValidationError` for an inverted pair, so no `Parameter` with
inverted bounds is ever produced by it. -/
def mkParameter (value : ℚ) (bounds : Option (ℚ × ℚ)) (vary : Bool)
    (name : String) (logpTerm : ℚ) : Except FitError Parameter :=
  match bounds with
  | some (lo, hi) =>
    if hi < lo then .error (.validation "Parameter bounds are inverted (low > high)")
    else .ok ⟨value, some (lo, hi), vary, name, logpTerm⟩
  | none => .ok ⟨value, none, vary, name, logpTerm⟩

/-- Modelled from the spec: a `Layer` is a slab composed from Parameters —
SLD (real and imaginary part), thickness and interfacial roughness — held
as shared arena indices. -/
structure Layer where
  sldRe : ParamId
  sldIm : ParamId
  thick : ParamId
  rough : ParamId
deriving DecidableEq, Repr

/-- The Parameters a layer declares, in declaration order. -/
def Layer.paramIds (l : Layer) : List ParamId :=
  [l.sldRe, l.sldIm, l.thick, l.rough]

/-- Modelled from the spec: a `Structure` is an ordered stack of layers,
incident medium first, exit medium last. -/
structure Structure where
  layers : List Layer
deriving DecidableEq, Repr

/-- The Parameters a structure declares, in declaration order
(layer by layer, incident medium first). -/
def Structure.paramIds (s : Structure) : List ParamId :=
  (s.layers.map Layer.paramIds).flatten

/-- Modelled from the spec: a dataset — equal-length columns of momentum
transfer `q`, measured reflectivity `R`, uncertainty `dR` and resolution
width `dq`. -/
structure Dataset where
  qs : List ℚ
  Rs : List ℚ
  dRs : List ℚ
  dqs : List ℚ
deriving DecidableEq, Repr

/-- Modelled from the spec: the model wrapping a `Structure` for comparison
with data — an overall scale and a constant background (both Parameters,
as in `ReflectModel(structure, bkg=…)`), and a constant relative resolution
width (percentage) for smearing. -/
structure ReflectModel where
  struc : Structure
  scale : ParamId
  bkg : ParamId
  dqPct : ℚ
deriving DecidableEq, Repr

/-- The Parameters a model declares, in declaration order: scale,
background, then the structure's parameters. -/
def ReflectModel.paramIds (m : ReflectModel) : List ParamId :=
  m.scale :: m.bkg :: m.struc.paramIds

/-- Modelled from the spec: an `Objective` pairs one model with one
dataset. -/
structure Objective where
  model : ReflectModel
  data : Dataset
deriving DecidableEq, Repr

/-- The Parameters an objective's model declares, in declaration order. -/
def Objective.paramIds (o : Objective) : List ParamId :=
  o.model.paramIds

/-- Modelled from the spec: `varying_parameters()` — the ordered sequence of
Parameters across the model with `vary = true`, in declaration order. -/
def Objective.varyingParameters (a : Arena) (o : Objective) : List ParamId :=
  o.paramIds.filter a.isVarying

/-- Modelled from the spec: a `GlobalObjective` owns an ordered collection
of Objectives. -/
structure GlobalObjective where
  objectives : List Objective
deriving DecidableEq, Repr

/-- Deduplicate a list of parameter identities keeping the first occurrence
of each (first-seen order). -/
def dedupKeepFirst : List ParamId → List ParamId
  | [] => []
  | x :: xs => x :: dedupKeepFirst (xs.filter (· ≠ x))
termination_by l => l.length
decreasing_by
  simp only [List.length_cons]
  exact Nat.lt_succ_of_le (List.length_filter_le _ _)

/-- Modelled from the spec: `GlobalObjective.varying_parameters()` — the
deduplicated union of the constituents' varying parameters, preserving
first-seen order; a Parameter shared by reference across constituents is
counted once. -/
def GlobalObjective.varyingParameters (a : Arena) (g : GlobalObjective) :
    List ParamId :=
  dedupKeepFirst ((g.objectives.map (Objective.varyingParameters a)).flatten)

/-- The values a structure currently observes for each of its declared
Parameters, read through its shared handles. -/
def Structure.values (a : Arena) (s : Structure) : List ℚ :=
  s.paramIds.map a.valueOf

/-! ## Reflectivity engine

Modelled from the spec (§4.1): a recursive Fresnel/optical-matrix (Parratt)
computation, bottom interface to top, with complex arithmetic throughout,
phase factors from the thickness of internal layers, a roughness-dependent
(Nevot–Croce exponential) dampening factor at each interface, and
Gaussian-quadrature resolution smearing. -/

/-- A resolved slab: the numeric values a layer's shared Parameters hold at
the moment the engine is called. -/
structure Slab where
  sldRe : ℚ
  sldIm : ℚ
  thick : ℚ
  rough : ℚ
deriving DecidableEq, Repr

/-- Resolve a structure's layers against the arena, reading every Parameter
through its shared handle. -/
def Structure.resolve (a : Arena) (s : Structure) : List Slab :=
  s.layers.map fun l =>
    ⟨a.valueOf l.sldRe, a.valueOf l.sldIm, a.valueOf l.thick, a.valueOf l.rough⟩

/-- The complex SLD of a slab. -/
noncomputable def Slab.sldC (s : Slab) : ℂ :=
  ((s.sldRe : ℝ) : ℂ) + Complex.I * ((s.sldIm : ℝ) : ℂ)

/-- Modelled from the spec: the normal wavevector in a slab, from the
complex refractive-index contrast with the incident medium (SLD `sld0`),
derived from `q`; the square root is the principal complex power. -/
noncomputable def kzOf (q : ℚ) (sld0 : ℂ) (s : Slab) : ℂ :=
  (((q : ℝ) : ℂ) ^ 2 / 4 - 4 * ((Real.pi : ℝ) : ℂ) * (s.sldC - sld0)) ^ ((1 : ℂ) / 2)

/-- Modelled from the spec: the Fresnel reflection coefficient of one
interface, damped by the roughness-dependent (Nevot–Croce) factor. -/
noncomputable def rcoef (kAbove kBelow : ℂ) (σ : ℚ) : ℂ :=
  ((kAbove - kBelow) / (kAbove + kBelow)) *
    Complex.exp (-2 * kAbove * kBelow * (((σ : ℝ) ^ 2 : ℝ) : ℂ))

/-- Modelled from the spec: the Parratt recursion.  `parratt q sld0 kAbove
slabs` is the reflection amplitude at the interface between the layer above
(wavevector `kAbove`) and the stack `slabs` below it; phase factors
accumulate from the thickness of internal slabs only — the final
semi-infinite slab contributes no phase, so its thickness is never read. -/
noncomputable def parratt (q : ℚ) (sld0 : ℂ) : ℂ → List Slab → ℂ
  | _, [] => 0
  | kAbove, s :: rest =>
    let k := kzOf q sld0 s
    let r0 := rcoef kAbove k s.rough
    match rest with
    | [] => r0
    | _ :: _ =>
      let rb := parratt q sld0 k rest
      let beta := Complex.exp (2 * Complex.I * k * (((s.thick : ℝ) : ℝ) : ℂ))
      (r0 + rb * beta) / (1 + r0 * rb * beta)

/-- Modelled from the spec: raw (unsmeared) reflectivity of a resolved
stack at one `q`: the squared modulus of the top-interface amplitude.  The
incident slab supplies the reference SLD and its own wavevector; it carries
no roughness-to-layer-above and its thickness is not read. -/
noncomputable def reflectivity (slabs : List Slab) (q : ℚ) : ℝ :=
  match slabs with
  | [] => 0
  | s0 :: rest => Complex.normSq (parratt q s0.sldC (kzOf q s0.sldC s0) rest)

/-- Modelled from the spec: fixed quadrature abscissas (in units of the
resolution standard deviation, covering ±3σ) for resolution smearing. -/
def abscissas : List ℚ := [-3, -3/2, 0, 3/2, 3]

/-- Gaussian weight of one quadrature abscissa. -/
noncomputable def gaussW (x : ℚ) : ℝ := Real.exp (-((x : ℝ)) ^ 2 / 2)

/-- Modelled from the spec: resolution smearing — a Gaussian-quadrature
approximation of the convolution of the raw curve with a Gaussian kernel of
width `dqPct` percent of `q`. -/
noncomputable def smeared (slabs : List Slab) (dqPct : ℚ) (q : ℚ) : ℝ :=
  (abscissas.map fun x => gaussW x * reflectivity slabs (q + x * (dqPct / 100 * q))).sum /
    (abscissas.map gaussW).sum

/-- The full per-point model value on resolved slabs: scale times the
smeared structure reflectivity, plus the constant background. -/
noncomputable def modelPointSlabs (scale bkg dqPct : ℚ) (slabs : List Slab) (q : ℚ) : ℝ :=
  (scale : ℝ) * smeared slabs dqPct q + (bkg : ℝ)

/-- The model curve on resolved slabs over a sequence of `q` values. -/
noncomputable def modelCurveSlabs (scale bkg dqPct : ℚ) (slabs : List Slab)
    (qs : List ℚ) : List ℝ :=
  qs.map (modelPointSlabs scale bkg dqPct slabs)

/-- Modelled from the spec: calling the model on one `q` — the notebooks'
`model(q)` — resolving scale, background and the structure's Parameters
through their shared handles. -/
noncomputable def ReflectModel.output (a : Arena) (m : ReflectModel) (q : ℚ) : ℝ :=
  modelPointSlabs (a.valueOf m.scale) (a.valueOf m.bkg) m.dqPct (m.struc.resolve a) q

/-- The model called on a sequence of `q` values. -/
noncomputable def ReflectModel.curve (a : Arena) (m : ReflectModel) (qs : List ℚ) : List ℝ :=
  modelCurveSlabs (a.valueOf m.scale) (a.valueOf m.bkg) m.dqPct (m.struc.resolve a) qs

/-- Overwrite the thickness of the final (semi-infinite backing) slab. -/
def setBackThick (t : ℚ) : List Slab → List Slab
  | [] => []
  | [s] => [{ s with thick := t }]
  | s :: s' :: rest => s :: setBackThick t (s' :: rest)

/-! ## Objective computations

Modelled from the spec (§4.2): residuals, chi-squared, and the Gaussian
log-likelihood with bound checking. -/

/-- Residuals, model outputs against data: `(model(q) − R) / dR`,
elementwise over the paired columns. -/
noncomputable def residualsAux : List ℝ → List ℚ → List ℚ → List ℝ
  | y :: ys, r :: rs, dr :: drs => (y - (r : ℝ)) / (dr : ℝ) :: residualsAux ys rs drs
  | _, _, _ => []

/-- Modelled from the spec: `residuals()` — `(model(q) − data.R) /
data.dR`, a sequence of reals. -/
noncomputable def Objective.residuals (a : Arena) (o : Objective) : List ℝ :=
  residualsAux (o.model.curve a o.data.qs) o.data.Rs o.data.dRs

/-- Accumulate the sum of squared residuals in one pass over the columns. -/
noncomputable def chiSqAux : List ℝ → List ℚ → List ℚ → ℝ
  | y :: ys, r :: rs, dr :: drs => ((y - (r : ℝ)) / (dr : ℝ)) ^ 2 + chiSqAux ys rs drs
  | _, _, _ => 0

/-- Modelled from the spec: `chi_squared()` — the sum of squared
residuals, computed in a single pass. -/
noncomputable def Objective.chiSquared (a : Arena) (o : Objective) : ℝ :=
  chiSqAux (o.model.curve a o.data.qs) o.data.Rs o.data.dRs

/-- Whether a parameter's value currently sits inside its bounds (an
unbounded parameter is always inside). -/
def Parameter.inBounds (p : Parameter) : Bool :=
  match p.bounds with
  | none => true
  | some (lo, hi) => decide (lo ≤ p.value) && decide (p.value ≤ hi)

/-- Whether every parameter in `ids` currently sits inside its bounds. -/
def Arena.allInBounds (a : Arena) (ids : List ParamId) : Bool :=
  ids.all fun i => (a.paramAt i).inBounds

/-- The user-supplied log-prior penalty: the sum of the `logpTerm`
contributions of the given parameters. -/
def Arena.penalty (a : Arena) (ids : List ParamId) : ℚ :=
  (ids.map fun i => (a.paramAt i).logpTerm).sum

/-- One-pass accumulation of `(residual)² + log(2π·dR²)` over the paired
columns. -/
noncomputable def loglAux : List ℝ → List ℚ → List ℚ → ℝ
  | y :: ys, r :: rs, dr :: drs =>
    ((y - (r : ℝ)) / (dr : ℝ)) ^ 2 + Real.log (2 * Real.pi * (dr : ℝ) ^ 2) + loglAux ys rs drs
  | _, _, _ => 0

/-- Modelled from the spec: `log_likelihood()` — the Gaussian-noise
log-likelihood `−0.5·χ² − 0.5·Σ log(2π·dR²)` minus the user-supplied
log-prior penalty, computed in one pass; negative infinity (`⊥ : EReal`)
whenever any varying Parameter's value leaves its bounds. -/
noncomputable def Objective.logLikelihood (a : Arena) (o : Objective) : EReal :=
  if a.allInBounds (o.varyingParameters a) then
    (((-(1 / 2 : ℝ)) * loglAux (o.model.curve a o.data.qs) o.data.Rs o.data.dRs -
      ((a.penalty (o.varyingParameters a) : ℚ) : ℝ) : ℝ) : EReal)
  else ⊥

/-! ## Optimizer

Modelled from the spec (§4.4): population-based differential evolution over
the bounded hyper-rectangle spanned by the varying Parameters' bounds;
deterministic given a fixed random seed; on completion the best-found
vector is written back into the Parameters' values in `varying_parameters`
order.  The pseudo-random stream is modelled by a linear congruential
generator (the spec fixes only determinism in the seed). -/

/-- One step of the modelled pseudo-random stream. -/
def rngNext (s : Nat) : Nat := (s * 1103515245 + 12345) % 4294967296

/-- A pseudo-random fraction in `[0, 1)` extracted from an RNG state. -/
def randFrac (s : Nat) : ℚ := ((s % 65536 : Nat) : ℚ) / 65536

/-- Configuration surface of the optimizer (spec §6): population size,
generation budget, random seed, mutation scale and crossover probability. -/
structure DEConfig where
  popSize : Nat
  gens : Nat
  seed : Nat
  mutF : ℚ
  crossP : ℚ
deriving DecidableEq, Repr

/-- Clamp one component into its `[lo, hi]` interval. -/
def clip (lo hi x : ℚ) : ℚ := min hi (max lo x)

/-- Clamp a vector componentwise into the hyper-rectangle. -/
def clipVec : List ℚ → List ℚ → List ℚ → List ℚ
  | lo :: los, hi :: his, x :: xs => clip lo hi x :: clipVec los his xs
  | _, _, _ => []

/-- Draw one candidate vector uniformly inside the hyper-rectangle,
threading the RNG state. -/
def initVec : List ℚ → List ℚ → Nat → List ℚ × Nat
  | lo :: los, hi :: his, s =>
    let s1 := rngNext s
    let rest := initVec los his s1
    ((lo + randFrac s1 * (hi - lo)) :: rest.1, rest.2)
  | _, _, s => ([], s)

/-- Draw the initial population of `n` candidate vectors within bounds. -/
def initPop (lows his : List ℚ) : Nat → Nat → List (List ℚ) × Nat
  | 0, s => ([], s)
  | n + 1, s =>
    let v := initVec lows his s
    let rest := initPop lows his n v.2
    (v.1 :: rest.1, rest.2)

/-- Mutation: base vector plus the scaled difference of two population
members, componentwise. -/
def mutateVec (f : ℚ) : List ℚ → List ℚ → List ℚ → List ℚ
  | b :: bs, x :: xs, y :: ys => (b + f * (x - y)) :: mutateVec f bs xs ys
  | _, _, _ => []

/-- Crossover: componentwise mix of mutant and original at a fixed
crossover probability, threading the RNG state. -/
def crossVec (cr : ℚ) : List ℚ → List ℚ → Nat → List ℚ × Nat
  | m :: ms, o :: os, s =>
    let s1 := rngNext s
    let rest := crossVec cr ms os s1
    ((if randFrac s1 < cr then m else o) :: rest.1, rest.2)
  | _, _, s => ([], s)

/-- Pick a random member of the population, threading the RNG state. -/
def pickMember (pop : List (List ℚ)) (s : Nat) : List ℚ × Nat :=
  let s1 := rngNext s
  (pop.getD (s1 % pop.length) [], s1)

/-- Produce the trial vector for one candidate: mutation from three random
population members, clipped into bounds, then crossover with the
original. -/
def trialFor (lows his : List ℚ) (f cr : ℚ) (pop : List (List ℚ))
    (x : List ℚ) (s : Nat) : List ℚ × Nat :=
  let b := pickMember pop s
  let p := pickMember pop b.2
  let q := pickMember pop p.2
  let m := clipVec lows his (mutateVec f b.1 p.1 q.1)
  crossVec cr m x q.2

/-- One generation: every candidate is challenged by its trial vector
(built from the pre-generation population snapshot) and replaced when the
trial's cost is no worse. -/
def genStepAux (cost : List ℚ → ℚ) (lows his : List ℚ) (f cr : ℚ)
    (pop : List (List ℚ)) : List (List ℚ) → Nat → List (List ℚ) × Nat
  | [], s => ([], s)
  | x :: xs, s =>
    let t := trialFor lows his f cr pop x s
    let rest := genStepAux cost lows his f cr pop xs t.2
    ((if cost t.1 ≤ cost x then t.1 else x) :: rest.1, rest.2)

/-- Iterate the generation step for the configured budget. -/
def runGens (cost : List ℚ → ℚ) (lows his : List ℚ) (f cr : ℚ) :
    Nat → List (List ℚ) → Nat → List (List ℚ) × Nat
  | 0, pop, s => (pop, s)
  | g + 1, pop, s =>
    let step := genStepAux cost lows his f cr pop pop s
    runGens cost lows his f cr g step.1 step.2

/-- The lowest-cost member of the final population. -/
def bestOf (cost : List ℚ → ℚ) : List (List ℚ) → List ℚ
  | [] => []
  | [x] => x
  | x :: y :: xs =>
    let b := bestOf cost (y :: xs)
    if cost x ≤ cost b then x else b

/-- Write a vector of values back into the arena, one identity at a time,
in order. -/
def Arena.writeBack (a : Arena) : List ParamId → List ℚ → Arena
  | i :: is, v :: vs => (a.setValue i v).writeBack is vs
  | _, _ => a

/-- The declared lower bounds of the given parameters (an absent bound
reads as 0; the optimizer requires finite bounds). -/
def Arena.lowsOf (a : Arena) (ids : List ParamId) : List ℚ :=
  ids.map fun i => (((a.paramAt i).bounds).getD (0, 0)).1

/-- The declared upper bounds of the given parameters. -/
def Arena.highsOf (a : Arena) (ids : List ParamId) : List ℚ :=
  ids.map fun i => (((a.paramAt i).bounds).getD (0, 0)).2

/-- Modelled from the spec: `fit` — differential evolution over the
hyper-rectangle spanned by the varying parameters' declared bounds,
minimising the supplied scalar cost (negative log-posterior); on
completion the best-found vector is written back into the Parameters'
values, in `varying_parameters` order.  Returns the mutated arena and the
best vector. -/
def fit (cost : List ℚ → ℚ) (cfg : DEConfig) (a : Arena) (ids : List ParamId) :
    Arena × List ℚ :=
  let lows := a.lowsOf ids
  let his := a.highsOf ids
  let pop0 := initPop lows his cfg.popSize cfg.seed
  let popF := runGens cost lows his cfg.mutF cfg.crossP cfg.gens pop0.1 pop0.2
  let best := bestOf cost popF.1
  (a.writeBack ids best, best)

/-! ## Sampler

Modelled from the spec (§4.5): affine-invariant ensemble MCMC — walkers
propose stretch moves derived from the position of another walker and
accept or reject Metropolis-style against the posterior; the chain history
accumulates across `sample` calls and `reset` discards it without touching
walker positions.  The uniform acceptance draw is modelled through the same
pseudo-random stream. -/

/-- Sampler state: current walker positions, the stored chain history
(one snapshot of all walkers per retained step), and the RNG state. -/
structure SamplerState where
  walkers : List (List ℚ)
  chain : List (List (List ℚ))
  rng : Nat
deriving DecidableEq, Repr

/-- The stretch factor for one proposal, drawn from the RNG state. -/
def stretchZ (s : Nat) : ℚ := (1 + (s % 3 : Nat) : ℚ) / 2

/-- The stretch-move proposal: `partner + z · (walker − partner)`,
componentwise. -/
def stretchVec (z : ℚ) : List ℚ → List ℚ → List ℚ
  | p :: ps, x :: xs => (p + z * (x - p)) :: stretchVec z ps xs
  | _, _ => []

/-- Advance each walker of the tail once: pick a partner among the other
walkers, build the stretch proposal, and accept it Metropolis-style (a
proposal is accepted when the log-posterior does not drop by more than the
random slack).  `all` is the pre-move ensemble snapshot, `i` the index of
the walker at the head of the tail. -/
def moveWalkers (post : List ℚ → ℚ) (all : List (List ℚ)) :
    List (List ℚ) → Nat → Nat → List (List ℚ) × Nat
  | [], _, s => ([], s)
  | w :: ws, i, s =>
    let n := all.length
    let s1 := rngNext s
    let partner := all.getD ((i + 1 + s1 % (n - 1)) % n) []
    let s2 := rngNext s1
    let prop := stretchVec (stretchZ s2) partner w
    let s3 := rngNext s2
    let slack : ℚ := ((s3 % 2 : Nat) : ℚ)
    let w1 := if post w - slack ≤ post prop then prop else w
    let rest := moveWalkers post all ws (i + 1) s3
    (w1 :: rest.1, rest.2)

/-- Advance the whole ensemble by one step. -/
def advanceOnce (post : List ℚ → ℚ) (ws : List (List ℚ)) (s : Nat) :
    List (List ℚ) × Nat :=
  moveWalkers post ws ws 0 s

/-- Advance the whole ensemble by `n` steps. -/
def advanceN (post : List ℚ → ℚ) : Nat → List (List ℚ) → Nat → List (List ℚ) × Nat
  | 0, ws, s => (ws, s)
  | n + 1, ws, s =>
    let once := advanceOnce post ws s
    advanceN post n once.1 once.2

/-- Generate `n` retained snapshots: for each, advance the ensemble `k`
steps (the thinning factor) and retain the resulting positions.  Returns
the final positions, the final RNG state, and the retained snapshots in
order. -/
def sampleAux (post : List ℚ → ℚ) (k : Nat) :
    Nat → List (List ℚ) → Nat → List (List ℚ) × Nat × List (List (List ℚ))
  | 0, ws, s => (ws, s, [])
  | n + 1, ws, s =>
    let adv := advanceN post k ws s
    let rest := sampleAux post k n adv.1 adv.2
    (rest.1, rest.2.1, adv.1 :: rest.2.2)

/-- Modelled from the spec and the notebook narrative: `sample(n, nthin=k)`
advances every walker `n·k` times, retaining only every `k`-th generated
position per walker; the retained snapshots are appended to the internal
chain history and returned. -/
def SamplerState.sample (post : List ℚ → ℚ) (n k : Nat) (st : SamplerState) :
    SamplerState × List (List (List ℚ)) :=
  let r := sampleAux post k n st.walkers st.rng
  (⟨r.1, st.chain ++ r.2.2, r.2.1⟩, r.2.2)

/-- Modelled from the spec: `reset()` — discard the chain history without
altering walker positions (or the random stream). -/
def SamplerState.reset (st : SamplerState) : SamplerState :=
  { st with chain := [] }

/-! ## Concrete instances

Small concrete arenas, structures and objectives mirroring the notebooks'
models, used to exercise the theorems on explicit inputs. -/

/-- A concrete arena mirroring the bilayer notebook's co-refinement setup:
silicon and SiO₂ layer parameters (indices 0–7), a D₂O solvent layer
(8–11, index 11 being the shared `solv_roughness`), an hdmix solvent layer
(12–14, reusing index 11 for its roughness), and per-contrast scale and
background parameters (15–18). -/
def exArena : Arena :=
  [⟨207/100, none, false, "si sld", 0⟩,
   ⟨0, none, false, "si isld", 0⟩,
   ⟨0, none, false, "si thick", 0⟩,
   ⟨0, none, false, "si rough", 0⟩,
   ⟨347/100, none, false, "sio2 sld", 0⟩,
   ⟨0, none, false, "sio2 isld", 0⟩,
   ⟨30, some (15, 50), true, "sio2 thick", 0⟩,
   ⟨3, some (1, 15), true, "sio2 rough", 0⟩,
   ⟨159/25, none, false, "d2o sld", 0⟩,
   ⟨0, none, false, "d2o isld", 0⟩,
   ⟨0, none, false, "d2o thick", 0⟩,
   ⟨3, some (0, 5), true, "solv rough", 0⟩,
   ⟨2, none, false, "hdmix sld", 0⟩,
   ⟨0, none, false, "hdmix isld", 0⟩,
   ⟨0, none, false, "hdmix thick", 0⟩,
   ⟨1, some (9/10, 11/10), true, "scale d2o", 0⟩,
   ⟨0, some (-1/1000000, 1/1000000), true, "bkg d2o", 0⟩,
   ⟨1, none, false, "scale hdmix", 0⟩,
   ⟨0, some (-1/1000000, 1/1000000), true, "bkg hdmix", 0⟩]

/-- The D₂O-contrast structure: si | sio2 | d2o, the sio2 layer and the
solvent roughness held by shared handles. -/
def exStructD2o : Structure :=
  ⟨[⟨0, 1, 2, 3⟩, ⟨4, 5, 6, 7⟩, ⟨8, 9, 10, 11⟩]⟩

/-- The hdmix-contrast structure, sharing the si and sio2 layers and the
solvent roughness (index 11) with the D₂O structure. -/
def exStructHdmix : Structure :=
  ⟨[⟨0, 1, 2, 3⟩, ⟨4, 5, 6, 7⟩, ⟨12, 13, 14, 11⟩]⟩

/-- A dataset with three points (equal-length columns). -/
def exData : Dataset :=
  ⟨[1/100, 1/10, 1/5], [9/10, 1/100, 1/1000], [1/100, 1/1000, 1/10000], [1/2, 1/2, 1/2]⟩

/-- The D₂O-contrast objective. -/
def exObjD2o : Objective := ⟨⟨exStructD2o, 15, 16, 5⟩, exData⟩

/-- The hdmix-contrast objective (its own scale and background, shared
structural parameters). -/
def exObjHdmix : Objective := ⟨⟨exStructHdmix, 17, 18, 5⟩, exData⟩

/-- The global objective co-refining both contrasts. -/
def exGlobal : GlobalObjective := ⟨[exObjD2o, exObjHdmix]⟩

/-- An arena for an all-equal-SLD stack with a negative background:
index 0 the scale, index 1 the background (set to −10⁻⁶, inside the
bilayer notebook's `bkg` bounds `(-1e-6, 1e-6)`), and indices 2–5 the slab
parameters shared by both layers. -/
def cArena : Arena :=
  [⟨1, some (9/10, 11/10), true, "scale", 0⟩,
   ⟨-1/1000000, some (-1/1000000, 1/1000000), true, "bkg", 0⟩,
   ⟨2, none, false, "sld", 0⟩,
   ⟨0, none, false, "isld", 0⟩,
   ⟨0, none, false, "thick", 0⟩,
   ⟨3, none, false, "rough", 0⟩]

/-- A two-medium structure whose layers share every slab parameter, so the
SLD contrast vanishes everywhere. -/
def cStruct : Structure := ⟨[⟨2, 3, 4, 5⟩, ⟨2, 3, 4, 5⟩]⟩

/-- The model over `cStruct` with the negative background of `cArena`. -/
def cModel : ReflectModel := ⟨cStruct, 0, 1, 5⟩

/-- An arena like `cArena` but with a non-negative background. -/
def wArena : Arena :=
  [⟨1, some (9/10, 11/10), true, "scale", 0⟩,
   ⟨3/1000000, some (1/1000000000, 9/1000000), true, "bkg", 0⟩,
   ⟨2, none, false, "sld", 0⟩,
   ⟨0, none, false, "isld", 0⟩,
   ⟨0, none, false, "thick", 0⟩,
   ⟨3, none, false, "rough", 0⟩]

/-- The model over `cStruct` read against `wArena`. -/
def wModel : ReflectModel := ⟨cStruct, 0, 1, 5⟩

/-- The objective pairing `wModel` with the three-point dataset. -/
def wObj : Objective := ⟨wModel, exData⟩

/-- A one-dimensional optimizer configuration: a single candidate, no
generations, seed 7. -/
def exCfg : DEConfig := ⟨1, 0, 7, 1/2, 9/10⟩

/-- A two-generation, three-member optimizer configuration. -/
def exCfg2 : DEConfig := ⟨3, 2, 11, 1/2, 9/10⟩

/-- A one-parameter arena with bounds (0, 4) for exercising the
optimizer. -/
def exArena7 : Arena := [⟨1, some (0, 4), true, "p", 0⟩]

/-- A two-parameter arena (one varying, one fixed) for exercising the
optimizer's write-back. -/
def exArena6 : Arena :=
  [⟨1, some (0, 4), true, "p", 0⟩, ⟨7, none, false, "fixed", 0⟩]

/-- A cost function reading the first component (a stand-in for the
negative log-posterior). -/
def exCost : List ℚ → ℚ := fun v => v.getD 0 0

/-- A two-walker, one-dimensional sampler state. -/
def st9 : SamplerState := ⟨[[0], [1]], [], 0⟩

/-- The posterior stand-in for the sampler instances: the first
component. -/
def post9 : List ℚ → ℚ := fun v => v.getD 0 0

/-- Componentwise containment of a vector in the hyper-rectangle spanned by
`lows` and `highs` (a vector shorter than the bounds lists is contained if
its existing components are; a vector longer than them is not). -/
def inRect : List ℚ → List ℚ → List ℚ → Prop
  | _, _, [] => True
  | lo :: los, hi :: his, x :: xs => (lo ≤ x ∧ x ≤ hi) ∧ inRect los his xs
  | _, _, _ :: _ => False

/-! ## Backing-layer thickness irrelevance -/

theorem setBackThick_cons_cons (t : ℚ) (s : Slab) (rest : List Slab) :
    ∃ u us, setBackThick t (s :: rest) = u :: us := by
  cases rest with
  | nil => exact ⟨_, _, rfl⟩
  | cons s' rest' => exact ⟨_, _, rfl⟩

theorem parratt_singleton (q : ℚ) (z kA : ℂ) (s : Slab) :
    parratt q z kA [s] = rcoef kA (kzOf q z s) s.rough := rfl

theorem parratt_cons_cons (q : ℚ) (z kA : ℂ) (s s2 : Slab) (rest : List Slab) :
    parratt q z kA (s :: s2 :: rest)
      = (rcoef kA (kzOf q z s) s.rough
          + parratt q z (kzOf q z s) (s2 :: rest)
            * Complex.exp (2 * Complex.I * kzOf q z s * (((s.thick : ℝ) : ℝ) : ℂ)))
        / (1 + rcoef kA (kzOf q z s) s.rough
            * parratt q z (kzOf q z s) (s2 :: rest)
            * Complex.exp (2 * Complex.I * kzOf q z s * (((s.thick : ℝ) : ℝ) : ℂ))) := rfl

theorem parratt_setBackThick (q : ℚ) (z : ℂ) (t : ℚ) :
    ∀ (slabs : List Slab) (kA : ℂ),
      parratt q z kA (setBackThick t slabs) = parratt q z kA slabs := by
  intro slabs
  induction slabs with
  | nil => intro kA; rfl
  | cons s rest ih =>
    intro kA
    cases rest with
    | nil => simp [setBackThick, parratt, kzOf, Slab.sldC]
    | cons s' rest' =>
      obtain ⟨u, us, hu⟩ := setBackThick_cons_cons t s' rest'
      have hstep : setBackThick t (s :: s' :: rest') = s :: setBackThick t (s' :: rest') := rfl
      rw [hstep, hu, parratt_cons_cons, parratt_cons_cons, ← hu, ih]

theorem reflectivity_setBackThick (t : ℚ) (slabs : List Slab) (q : ℚ) :
    reflectivity (setBackThick t slabs) q = reflectivity slabs q := by
  cases slabs with
  | nil => rfl
  | cons s0 rest =>
    cases rest with
    | nil => simp [setBackThick, reflectivity, parratt, Slab.sldC, kzOf]
    | cons s1 rest' =>
      have hstep : setBackThick t (s0 :: s1 :: rest') = s0 :: setBackThick t (s1 :: rest') := rfl
      rw [hstep]
      simp only [reflectivity]
      rw [parratt_setBackThick]

theorem smeared_setBackThick (t dqPct : ℚ) (slabs : List Slab) (q : ℚ) :
    smeared (setBackThick t slabs) dqPct q = smeared slabs dqPct q := by
  simp only [smeared, reflectivity_setBackThick]

/-- C10: the modelled reflectivity curve is independent of the thickness
of the final (semi-infinite backing) slab of a structure: assigning any
two thickness values to the backing slab produces identical engine output
over every `q` sequence, so building the backing medium with thickness 0
(as the notebooks do) is equivalent to any other choice. -/
theorem backing_thickness_irrelevant (scale bkg dqPct : ℚ) (slabs : List Slab)
    (qs : List ℚ) (t1 t2 : ℚ) :
    modelCurveSlabs scale bkg dqPct (setBackThick t1 slabs) qs
      = modelCurveSlabs scale bkg dqPct (setBackThick t2 slabs) qs := by
  simp only [modelCurveSlabs]
  apply List.map_congr_left
  intro q hq
  simp only [modelPointSlabs, smeared_setBackThick]

/-! ## Sampler: reset and sample -/

/-- C8: `reset()` empties the stored chain history, leaves every walker's
current position (and the random stream) unchanged, and sampling resumed
after a reset produces exactly the walker positions and samples that
sampling without the reset would have produced; the chain after the
resumed run holds exactly the newly generated samples. -/
theorem sampler_reset_spec (post : List ℚ → ℚ) (n k : Nat) (st : SamplerState) :
    (st.reset).chain = []
  ∧ (st.reset).walkers = st.walkers
  ∧ (st.reset).rng = st.rng
  ∧ ((st.reset).sample post n k).1.walkers = (st.sample post n k).1.walkers
  ∧ ((st.reset).sample post n k).2 = (st.sample post n k).2
  ∧ ((st.reset).sample post n k).1.chain = (st.sample post n k).2 := by
  refine ⟨rfl, rfl, rfl, ?_, ?_, ?_⟩ <;>
    simp [SamplerState.sample, SamplerState.reset]

theorem advanceN_add (post : List ℚ → ℚ) (a : Nat) :
    ∀ (b : Nat) (ws : List (List ℚ)) (s : Nat),
      advanceN post (a + b) ws s
        = advanceN post b (advanceN post a ws s).1 (advanceN post a ws s).2 := by
  induction a with
  | zero => intro b ws s; rw [Nat.zero_add]; rfl
  | succ a ih =>
    intro b ws s
    have h : a + 1 + b = (a + b) + 1 := by omega
    rw [h]
    show advanceN post (a + b) (advanceOnce post ws s).1 (advanceOnce post ws s).2
        = _
    rw [ih]
    rfl

theorem sampleAux_walkers_rng (post : List ℚ → ℚ) (k : Nat) :
    ∀ (n : Nat) (ws : List (List ℚ)) (s : Nat),
      (sampleAux post k n ws s).1 = (advanceN post (n * k) ws s).1
    ∧ (sampleAux post k n ws s).2.1 = (advanceN post (n * k) ws s).2 := by
  intro n
  induction n with
  | zero => intro ws s; rw [Nat.zero_mul]; exact ⟨rfl, rfl⟩
  | succ n ih =>
    intro ws s
    have hmul : (n + 1) * k = k + n * k := by ring
    rw [hmul, advanceN_add]
    exact ih (advanceN post k ws s).1 (advanceN post k ws s).2

theorem sampleAux_snaps (post : List ℚ → ℚ) (k : Nat) :
    ∀ (n : Nat) (ws : List (List ℚ)) (s : Nat),
      (sampleAux post k n ws s).2.2
        = (List.range n).map fun j => (advanceN post ((j + 1) * k) ws s).1 := by
  intro n
  induction n with
  | zero => intro ws s; rfl
  | succ n ih =>
    intro ws s
    rw [List.range_succ_eq_map, List.map_cons, List.map_map]
    show (advanceN post k ws s).1 :: (sampleAux post k n (advanceN post k ws s).1
        (advanceN post k ws s).2).2.2 = _
    rw [ih]
    congr 1
    · norm_num
    · apply List.map_congr_left
      intro j hj
      simp only [Function.comp]
      have h : (j + 1 + 1) * k = k + (j + 1) * k := by ring
      rw [h, advanceN_add]

/-- C9 (amended): `sample(n, nthin=k)` advances every walker exactly `n·k`
times (not `n` times); of every `k` generated positions per walker, the one
reached after each `k`-th advance is retained; the `n` retained snapshots
are appended to the internal chain history and returned.  With `k = 1` the
walkers advance exactly `n` times. -/
theorem sampler_sample_spec (post : List ℚ → ℚ) (n k : Nat) (st : SamplerState) :
    (st.sample post n k).1.walkers = (advanceN post (n * k) st.walkers st.rng).1
  ∧ (st.sample post n k).1.rng = (advanceN post (n * k) st.walkers st.rng).2
  ∧ (st.sample post n k).1.chain = st.chain ++ (st.sample post n k).2
  ∧ (st.sample post n k).2
      = (List.range n).map (fun j => (advanceN post ((j + 1) * k) st.walkers st.rng).1)
  ∧ (st.sample post n k).2.length = n
  ∧ (st.sample post n 1).1.walkers = (advanceN post n st.walkers st.rng).1 := by
  refine ⟨(sampleAux_walkers_rng post k n st.walkers st.rng).1,
    (sampleAux_walkers_rng post k n st.walkers st.rng).2, rfl,
    sampleAux_snaps post k n st.walkers st.rng, ?_, ?_⟩
  · show (sampleAux post k n st.walkers st.rng).2.2.length = n
    rw [sampleAux_snaps]
    simp
  · rw [show (st.sample post n 1).1.walkers
        = (advanceN post (n * 1) st.walkers st.rng).1 from
        (sampleAux_walkers_rng post 1 n st.walkers st.rng).1, Nat.mul_one]

/-- C9 counterexample: on a concrete two-walker state, `sample(2, nthin=3)`
does not leave the walkers where advancing every walker exactly 2 steps
would (it advances them 6 times), refuting the claim that `sample(n_steps)`
advances every walker exactly `n_steps` times when a thinning factor is
configured. -/
theorem sampler_sample_counterexample :
    (st9.sample post9 2 3).1.walkers ≠ (advanceN post9 2 st9.walkers st9.rng).1 := by
  norm_num [st9, post9, SamplerState.sample, sampleAux, advanceN, advanceOnce,
    moveWalkers, stretchVec, stretchZ, rngNext, randFrac]

/-! ## Parameter construction -/

/-- C5: constructing a Parameter with inverted bounds (low > high) is
rejected immediately with a `ValidationError` at construction time, and no
Parameter with inverted bounds is ever produced by the constructor (the
error cannot be deferred to fit time: no object exists to carry it
there). -/
theorem mkParameter_rejects_inverted_bounds (v lo hi : ℚ) (vy : Bool) (nm : String)
    (pen : ℚ) (h : hi < lo) :
    mkParameter v (some (lo, hi)) vy nm pen
      = .error (.validation "Parameter bounds are inverted (low > high)")
  ∧ (∀ (v' : ℚ) (b : Option (ℚ × ℚ)) (vy' : Bool) (nm' : String) (pen' : ℚ)
      (p : Parameter), mkParameter v' b vy' nm' pen' = .ok p →
      ∀ lo' hi', p.bounds = some (lo', hi') → lo' ≤ hi') := by
  constructor
  · simp [mkParameter, h]
  · intro v' b vy' nm' pen' p hp lo' hi' hb
    match b with
    | none =>
      simp only [mkParameter] at hp
      cases hp
      simp at hb
    | some (l, h') =>
      simp only [mkParameter] at hp
      by_cases hlt : h' < l
      · rw [if_pos hlt] at hp
        cases hp
      · rw [if_neg hlt] at hp
        cases hp
        simp only [Option.some.injEq, Prod.mk.injEq] at hb
        obtain ⟨h1, h2⟩ := hb
        subst h1
        subst h2
        exact le_of_not_lt hlt

/-! ## Reflectivity: shape, sign, and the background counterexample -/

theorem reflectivity_nonneg (slabs : List Slab) (q : ℚ) : 0 ≤ reflectivity slabs q := by
  cases slabs with
  | nil => exact le_refl 0
  | cons s0 rest => exact Complex.normSq_nonneg _

theorem gaussW_nonneg (x : ℚ) : 0 ≤ gaussW x := Real.exp_nonneg _

theorem smeared_nonneg (slabs : List Slab) (dqPct q : ℚ) :
    0 ≤ smeared slabs dqPct q := by
  apply div_nonneg
  · apply List.sum_nonneg
    intro x hx
    obtain ⟨a, _, ha⟩ := List.mem_map.mp hx
    exact ha ▸ mul_nonneg (gaussW_nonneg a) (reflectivity_nonneg slabs _)
  · apply List.sum_nonneg
    intro x hx
    obtain ⟨a, _, ha⟩ := List.mem_map.mp hx
    exact ha ▸ gaussW_nonneg a

/-- C2 (amended): the model called on a `q` sequence returns a sequence of
the same length whose elements are all real; the raw structure reflectivity
is always non-negative, and the full model output (scale · R + background)
is non-negative whenever the scale and background values are non-negative —
but not unconditionally, since the bilayer notebook's background bounds
admit negative values (see the counterexample). -/
theorem reflectModel_curve_spec (a : Arena) (m : ReflectModel) (qs : List ℚ) :
    (m.curve a qs).length = qs.length
  ∧ (∀ (slabs : List Slab) (q : ℚ), 0 ≤ reflectivity slabs q)
  ∧ (0 ≤ a.valueOf m.scale → 0 ≤ a.valueOf m.bkg →
      ∀ r ∈ m.curve a qs, 0 ≤ r) := by
  refine ⟨by simp [ReflectModel.curve, modelCurveSlabs], reflectivity_nonneg, ?_⟩
  intro hs hb r hr
  simp only [ReflectModel.curve, modelCurveSlabs, List.mem_map] at hr
  obtain ⟨q, _, hq⟩ := hr
  rw [← hq]
  apply add_nonneg
  · exact mul_nonneg (by exact_mod_cast hs) (smeared_nonneg _ _ _)
  · exact_mod_cast hb

/-- C2 witness: the concrete model `wModel` over `wArena` has non-negative
scale and background, so its three-point curve is elementwise
non-negative. -/
theorem reflectModel_curve_spec_witness :
    (0 : ℚ) ≤ wArena.valueOf wModel.scale
  ∧ (0 : ℚ) ≤ wArena.valueOf wModel.bkg
  ∧ (wModel.curve wArena [1/100, 1/10, 1/5]).length = 3
  ∧ ∀ r ∈ wModel.curve wArena [1/100, 1/10, 1/5], 0 ≤ r := by
  have hs : (0 : ℚ) ≤ wArena.valueOf wModel.scale := by
    show (0 : ℚ) ≤ 1
    norm_num
  have hb : (0 : ℚ) ≤ wArena.valueOf wModel.bkg := by
    show (0 : ℚ) ≤ 3 / 1000000
    norm_num
  exact ⟨hs, hb,
    (reflectModel_curve_spec wArena wModel [1/100, 1/10, 1/5]).1,
    (reflectModel_curve_spec wArena wModel [1/100, 1/10, 1/5]).2.2 hs hb⟩

theorem kzOf_of_sldC_eq (q : ℚ) (z : ℂ) (s : Slab) (h : s.sldC = z) :
    kzOf q z s = ((((q : ℝ) : ℂ)) ^ 2 / 4) ^ ((1 : ℂ) / 2) := by
  simp [kzOf, h]

theorem rcoef_self (k : ℂ) (σ : ℚ) : rcoef k k σ = 0 := by
  simp [rcoef]

theorem parratt_const_sld (q : ℚ) (z : ℂ) :
    ∀ (slabs : List Slab) (kA : ℂ),
      (∀ s ∈ slabs, s.sldC = z) →
      kA = ((((q : ℝ) : ℂ)) ^ 2 / 4) ^ ((1 : ℂ) / 2) →
      parratt q z kA slabs = 0 := by
  intro slabs
  induction slabs with
  | nil => intro kA h hk; rfl
  | cons s rest ih =>
    intro kA h hk
    have hs : s.sldC = z := h s (by simp)
    have hkz : kzOf q z s = kA := by rw [kzOf_of_sldC_eq q z s hs, hk]
    cases rest with
    | nil =>
      rw [parratt_singleton, hkz, rcoef_self]
    | cons s2 rest' =>
      rw [parratt_cons_cons, hkz, rcoef_self,
        ih kA (fun u hu => h u (by simp [hu])) hk]
      simp

theorem reflectivity_const_sld (slabs : List Slab) (z : ℂ)
    (h : ∀ s ∈ slabs, s.sldC = z) (q : ℚ) : reflectivity slabs q = 0 := by
  cases slabs with
  | nil => rfl
  | cons s0 rest =>
    have hs0 : s0.sldC = z := h s0 (by simp)
    simp only [reflectivity, hs0]
    rw [kzOf_of_sldC_eq q z s0 hs0,
      parratt_const_sld q z rest _ (fun u hu => h u (by simp [hu])) rfl]
    simp

/-- C2 counterexample: with the equal-SLD two-medium model `cModel` and the
background value −10⁻⁶ stored in `cArena` (inside the bilayer notebook's
background bounds `(-1e-6, 1e-6)`), the model output at `q = 1` is
negative, refuting unconditional non-negativity of the modelled curve. -/
theorem reflectModel_curve_counterexample :
    ∃ r ∈ cModel.curve cArena [1], r < 0 := by
  have hres : cStruct.resolve cArena = [⟨2, 0, 0, 3⟩, ⟨2, 0, 0, 3⟩] := rfl
  have hsld : ∀ s ∈ cStruct.resolve cArena, s.sldC = (((2 : ℚ) : ℝ) : ℂ) := by
    rw [hres]
    intro s hs
    simp only [List.mem_cons, List.not_mem_nil, or_false] at hs
    have hv : s = ⟨2, 0, 0, 3⟩ := by
      rcases hs with h | h <;> exact h
    rw [hv]
    simp [Slab.sldC]
  have h0 : ∀ q : ℚ, reflectivity (cStruct.resolve cArena) q = 0 :=
    reflectivity_const_sld _ _ hsld
  have hsm : smeared (cStruct.resolve cArena) cModel.dqPct 1 = 0 := by
    simp [smeared, h0]
  refine ⟨cModel.output cArena 1, by simp [ReflectModel.curve, modelCurveSlabs,
    ReflectModel.output], ?_⟩
  rw [ReflectModel.output, modelPointSlabs]
  show (((cArena.valueOf 0 : ℚ) : ℝ)) * smeared (cStruct.resolve cArena) cModel.dqPct 1
      + ((cArena.valueOf 1 : ℚ) : ℝ) < 0
  rw [hsm]
  norm_num [cArena, Arena.valueOf, Arena.paramAt]

/-! ## Objective computations: residuals, chi-squared, log-likelihood -/

theorem list_getD_map (f : ℚ → ℝ) (l : List ℚ) (k : Nat) (hk : k < l.length) :
    (l.map f).getD k 0 = f (l.getD k 0) := by
  rw [List.getD_eq_getElem?_getD, List.getD_eq_getElem?_getD, List.getElem?_map,
    List.getElem?_eq_getElem hk]
  simp

theorem curve_length (a : Arena) (m : ReflectModel) (qs : List ℚ) :
    (m.curve a qs).length = qs.length := by
  simp [ReflectModel.curve, modelCurveSlabs]

theorem curve_getD (a : Arena) (m : ReflectModel) (qs : List ℚ) (k : Nat)
    (hk : k < qs.length) :
    (m.curve a qs).getD k 0 = m.output a (qs.getD k 0) :=
  list_getD_map
    (modelPointSlabs (a.valueOf m.scale) (a.valueOf m.bkg) m.dqPct (m.struc.resolve a))
    qs k hk

theorem residualsAux_length : ∀ (ys : List ℝ) (rs drs : List ℚ),
    ys.length = rs.length → rs.length = drs.length →
    (residualsAux ys rs drs).length = ys.length := by
  intro ys
  induction ys with
  | nil => intro rs drs h1 h2; cases rs <;> cases drs <;> rfl
  | cons y ys ih =>
    intro rs drs h1 h2
    cases rs with
    | nil => simp at h1
    | cons r rs' =>
      cases drs with
      | nil => simp at h2
      | cons dr drs' =>
        simp only [residualsAux, List.length_cons, Nat.add_right_cancel_iff]
        exact ih rs' drs' (by simpa using h1) (by simpa using h2)

theorem residualsAux_getD : ∀ (ys : List ℝ) (rs drs : List ℚ) (k : Nat),
    ys.length = rs.length → rs.length = drs.length → k < ys.length →
    (residualsAux ys rs drs).getD k 0
      = (ys.getD k 0 - ((rs.getD k 0 : ℚ) : ℝ)) / ((drs.getD k 0 : ℚ) : ℝ) := by
  intro ys
  induction ys with
  | nil => intro rs drs k h1 h2 hk; simp at hk
  | cons y ys ih =>
    intro rs drs k h1 h2 hk
    cases rs with
    | nil => simp at h1
    | cons r rs' =>
      cases drs with
      | nil => simp at h2
      | cons dr drs' =>
        cases k with
        | zero => simp [residualsAux]
        | succ k' =>
          simp only [residualsAux, List.getD_cons_succ]
          exact ih rs' drs' k' (by simpa using h1) (by simpa using h2)
            (by simpa using hk)

theorem chiSqAux_eq_sum_sq : ∀ (ys : List ℝ) (rs drs : List ℚ),
    chiSqAux ys rs drs = ((residualsAux ys rs drs).map (fun r => r ^ 2)).sum := by
  intro ys
  induction ys with
  | nil => intro rs drs; cases rs <;> cases drs <;> rfl
  | cons y ys ih =>
    intro rs drs
    cases rs with
    | nil => rfl
    | cons r rs' =>
      cases drs with
      | nil => rfl
      | cons dr drs' =>
        simp only [chiSqAux, residualsAux, List.map_cons, List.sum_cons]
        rw [ih]

/-- C4: for an objective whose data columns have equal length, `residuals()`
is the elementwise sequence `(model(q) − R) / dR` (a sequence of reals of
the same length as the data), and `chi_squared()` is the sum of the squares
of exactly those residuals. -/
theorem objective_residuals_spec (a : Arena) (o : Objective)
    (h1 : o.data.qs.length = o.data.Rs.length)
    (h2 : o.data.Rs.length = o.data.dRs.length) :
    (o.residuals a).length = o.data.qs.length
  ∧ (∀ k, k < o.data.qs.length →
      (o.residuals a).getD k 0
        = (o.model.output a (o.data.qs.getD k 0) - ((o.data.Rs.getD k 0 : ℚ) : ℝ))
          / ((o.data.dRs.getD k 0 : ℚ) : ℝ))
  ∧ o.chiSquared a = ((o.residuals a).map (fun r => r ^ 2)).sum := by
  have hc : (o.model.curve a o.data.qs).length = o.data.qs.length :=
    curve_length a o.model o.data.qs
  refine ⟨?_, ?_, ?_⟩
  · rw [Objective.residuals, residualsAux_length _ _ _ (hc.trans h1)
      h2, hc]
  · intro k hk
    rw [Objective.residuals, residualsAux_getD _ _ _ k (hc.trans h1) h2
      (by rw [hc]; exact hk), curve_getD a o.model o.data.qs k hk]
  · rw [Objective.chiSquared, Objective.residuals, chiSqAux_eq_sum_sq]

/-- C4 witness: the concrete objective `wObj` has equal-length data
columns, so its residuals and chi-squared satisfy the elementwise
contract. -/
theorem objective_residuals_spec_witness :
    wObj.data.qs.length = wObj.data.Rs.length
  ∧ wObj.data.Rs.length = wObj.data.dRs.length
  ∧ ((wObj.residuals wArena).length = wObj.data.qs.length
  ∧ (∀ k, k < wObj.data.qs.length →
      (wObj.residuals wArena).getD k 0
        = (wObj.model.output wArena (wObj.data.qs.getD k 0)
            - ((wObj.data.Rs.getD k 0 : ℚ) : ℝ))
          / ((wObj.data.dRs.getD k 0 : ℚ) : ℝ))
  ∧ wObj.chiSquared wArena = ((wObj.residuals wArena).map (fun r => r ^ 2)).sum) :=
  ⟨rfl, rfl, objective_residuals_spec wArena wObj rfl rfl⟩

theorem loglAux_eq : ∀ (ys : List ℝ) (rs drs : List ℚ),
    ys.length = rs.length → rs.length = drs.length →
    loglAux ys rs drs
      = chiSqAux ys rs drs
        + (drs.map (fun dr => Real.log (2 * Real.pi * ((dr : ℚ) : ℝ) ^ 2))).sum := by
  intro ys
  induction ys with
  | nil =>
    intro rs drs h1 h2
    cases rs with
    | nil =>
      cases drs with
      | nil => simp [loglAux, chiSqAux]
      | cons dr drs' => simp at h2
    | cons r rs' => simp at h1
  | cons y ys ih =>
    intro rs drs h1 h2
    cases rs with
    | nil => simp at h1
    | cons r rs' =>
      cases drs with
      | nil => simp at h2
      | cons dr drs' =>
        simp only [loglAux, chiSqAux, List.map_cons, List.sum_cons]
        rw [ih rs' drs' (by simpa using h1) (by simpa using h2)]
        ring

/-- C3: for an objective with equal-length data columns, `log_likelihood()`
equals `−0.5·chi_squared() − 0.5·Σ log(2π·dR²)` minus the user-supplied
log-prior penalty terms, and equals negative infinity whenever any varying
Parameter's value lies outside its bounds. -/
theorem objective_logLikelihood_spec (a : Arena) (o : Objective)
    (h1 : o.data.qs.length = o.data.Rs.length)
    (h2 : o.data.Rs.length = o.data.dRs.length) :
    (a.allInBounds (o.varyingParameters a) = true →
      o.logLikelihood a
        = ((-(1 / 2 : ℝ) * o.chiSquared a
            - (1 / 2 : ℝ)
              * (o.data.dRs.map (fun dr => Real.log (2 * Real.pi * ((dr : ℚ) : ℝ) ^ 2))).sum
            - ((a.penalty (o.varyingParameters a) : ℚ) : ℝ) : ℝ) : EReal))
  ∧ ((∃ i ∈ o.varyingParameters a, (a.paramAt i).inBounds = false) →
      o.logLikelihood a = ⊥) := by
  constructor
  · intro hin
    rw [Objective.logLikelihood, if_pos hin]
    have hc : (o.model.curve a o.data.qs).length = o.data.qs.length :=
      curve_length a o.model o.data.qs
    congr 1
    rw [loglAux_eq _ _ _ (hc.trans h1) h2, Objective.chiSquared]
    ring
  · intro hex
    obtain ⟨i, hi, hfalse⟩ := hex
    have hall : a.allInBounds (o.varyingParameters a) = false := by
      rw [Arena.allInBounds, List.all_eq_false]
      exact ⟨i, hi, by simp [hfalse]⟩
    rw [Objective.logLikelihood, if_neg (by simp [hall])]

/-- C3 witness: the concrete objective `wObj` has equal-length data columns
and all varying parameters inside their bounds, so its log-likelihood is
exactly the Gaussian formula minus the penalty. -/
theorem objective_logLikelihood_spec_witness :
    wObj.data.qs.length = wObj.data.Rs.length
  ∧ wObj.data.Rs.length = wObj.data.dRs.length
  ∧ wArena.allInBounds (wObj.varyingParameters wArena) = true
  ∧ wObj.logLikelihood wArena
      = ((-(1 / 2 : ℝ) * wObj.chiSquared wArena
          - (1 / 2 : ℝ)
            * (wObj.data.dRs.map (fun dr => Real.log (2 * Real.pi * ((dr : ℚ) : ℝ) ^ 2))).sum
          - ((wArena.penalty (wObj.varyingParameters wArena) : ℚ) : ℝ) : ℝ) : EReal) := by
  have hv : wObj.varyingParameters wArena = [0, 1] := by
    simp [wObj, wModel, cStruct, wArena, Objective.varyingParameters,
      Objective.paramIds, ReflectModel.paramIds, Structure.paramIds,
      Layer.paramIds, Arena.isVarying, Arena.paramAt]
  have hb : wArena.allInBounds (wObj.varyingParameters wArena) = true := by
    rw [hv]
    simp only [Arena.allInBounds, List.all_cons, List.all_nil, Arena.paramAt,
      Parameter.inBounds]
    norm_num [wArena]
  exact ⟨rfl, rfl, hb, (objective_logLikelihood_spec wArena wObj rfl rfl).1 hb⟩

/-! ## Global objective: deduplicated union and shared-handle visibility -/

theorem dedupKeepFirst_mem : ∀ (l : List ParamId) (a : ParamId),
    a ∈ dedupKeepFirst l ↔ a ∈ l := by
  intro l
  induction l using dedupKeepFirst.induct with
  | case1 => intro a; simp [dedupKeepFirst]
  | case2 x xs ih =>
    intro a
    simp only [dedupKeepFirst, List.mem_cons, ih, List.mem_filter]
    by_cases hax : a = x
    · simp [hax]
    · simp [hax]

theorem dedupKeepFirst_nodup : ∀ (l : List ParamId), (dedupKeepFirst l).Nodup := by
  intro l
  induction l using dedupKeepFirst.induct with
  | case1 => simp [dedupKeepFirst]
  | case2 x xs ih =>
    rw [dedupKeepFirst]
    refine List.nodup_cons.mpr ⟨?_, ih⟩
    intro hmem
    have hx := (dedupKeepFirst_mem _ x).mp hmem
    simp at hx

theorem dedupKeepFirst_sublist : ∀ (l : List ParamId), (dedupKeepFirst l).Sublist l := by
  intro l
  induction l using dedupKeepFirst.induct with
  | case1 => simp [dedupKeepFirst]
  | case2 x xs ih =>
    rw [dedupKeepFirst]
    exact List.Sublist.cons₂ x (ih.trans (List.filter_sublist xs))

theorem indexOf_filter_lt_iff (p : ParamId → Bool) :
    ∀ (xs : List ParamId) (a b : ParamId), a ∈ xs.filter p → b ∈ xs.filter p →
      ((xs.filter p).indexOf a < (xs.filter p).indexOf b
        ↔ xs.indexOf a < xs.indexOf b) := by
  intro xs
  induction xs with
  | nil => intro a b ha hb; simp at ha
  | cons c t ih =>
    intro a b ha hb
    by_cases hc : p c
    · rw [List.filter_cons_of_pos hc] at ha hb ⊢
      by_cases hac : a = c
      · subst hac
        by_cases hbc : b = a
        · subst hbc; simp
        · rw [List.indexOf_cons_self, List.indexOf_cons_self,
            List.indexOf_cons_ne _ (Ne.symm hbc), List.indexOf_cons_ne _ (Ne.symm hbc)]
          simp [Nat.succ_pos]
      · by_cases hbc : b = c
        · subst hbc
          rw [List.indexOf_cons_self, List.indexOf_cons_self,
            List.indexOf_cons_ne _ (Ne.symm hac), List.indexOf_cons_ne _ (Ne.symm hac)]
          simp
        · rw [List.indexOf_cons_ne _ (Ne.symm hac), List.indexOf_cons_ne _ (Ne.symm hbc),
            List.indexOf_cons_ne _ (Ne.symm hac), List.indexOf_cons_ne _ (Ne.symm hbc)]
          have ha' : a ∈ t.filter p := by
            rcases List.mem_cons.mp ha with h | h
            · exact absurd h hac
            · exact h
          have hb' : b ∈ t.filter p := by
            rcases List.mem_cons.mp hb with h | h
            · exact absurd h hbc
            · exact h
          rw [Nat.succ_lt_succ_iff, Nat.succ_lt_succ_iff]
          exact ih a b ha' hb'
    · rw [List.filter_cons_of_neg hc] at ha hb ⊢
      have hac : a ≠ c := fun h => hc (h ▸ List.of_mem_filter ha)
      have hbc : b ≠ c := fun h => hc (h ▸ List.of_mem_filter hb)
      rw [List.indexOf_cons_ne _ (Ne.symm hac), List.indexOf_cons_ne _ (Ne.symm hbc),
        Nat.succ_lt_succ_iff]
      exact ih a b ha hb

theorem dedupKeepFirst_pairwise : ∀ (l : List ParamId),
    (dedupKeepFirst l).Pairwise (fun a b => l.indexOf a < l.indexOf b) := by
  intro l
  induction l using dedupKeepFirst.induct with
  | case1 => simp [dedupKeepFirst]
  | case2 x xs ih =>
    rw [dedupKeepFirst]
    refine List.pairwise_cons.mpr ⟨?_, ?_⟩
    · intro b hb
      have hbf : b ∈ xs.filter (fun y => y ≠ x) :=
        (dedupKeepFirst_mem _ b).mp hb
      have hbx : b ≠ x := by
        have := List.of_mem_filter hbf
        simpa using this
      rw [List.indexOf_cons_self, List.indexOf_cons_ne _ (Ne.symm hbx)]
      exact Nat.succ_pos _
    · refine List.Pairwise.imp_of_mem ?_ ih
      intro a b ha hb hlt
      have haf : a ∈ xs.filter (fun y => y ≠ x) := (dedupKeepFirst_mem _ a).mp ha
      have hbf : b ∈ xs.filter (fun y => y ≠ x) := (dedupKeepFirst_mem _ b).mp hb
      have hax : a ≠ x := by have := List.of_mem_filter haf; simpa using this
      have hbx : b ≠ x := by have := List.of_mem_filter hbf; simpa using this
      rw [List.indexOf_cons_ne _ (Ne.symm hax), List.indexOf_cons_ne _ (Ne.symm hbx),
        Nat.succ_lt_succ_iff]
      exact (indexOf_filter_lt_iff _ xs a b haf hbf).mp hlt

theorem dedupKeepFirst_length_card (l : List ParamId) :
    (dedupKeepFirst l).length = l.toFinset.card := by
  have hset : (dedupKeepFirst l).toFinset = l.toFinset := by
    apply Finset.ext
    intro x
    simp [List.mem_toFinset, dedupKeepFirst_mem]
  rw [← hset, List.toFinset_card_of_nodup (dedupKeepFirst_nodup l)]

theorem setValue_visible (a : Arena) (i : ParamId) (v : ℚ) (hi : i < a.length)
    (s : Structure) :
    s.values (a.setValue i v)
      = s.paramIds.map (fun j => if j = i then v else a.valueOf j) := by
  rw [Structure.values]
  apply List.map_congr_left
  intro j hj
  by_cases hji : j = i
  · subst hji
    simp only [if_pos rfl, Arena.valueOf, Arena.paramAt, Arena.setValue]
    rw [List.getD_eq_getElem?_getD, List.getElem?_set_self (by simpa using hi)]
    simp
  · simp only [if_neg hji, Arena.valueOf, Arena.paramAt, Arena.setValue]
    rw [List.getD_eq_getElem?_getD, List.getElem?_set_ne (fun h => hji h.symm),
      ← List.getD_eq_getElem?_getD]

/-- C1: `GlobalObjective.varying_parameters()` is the deduplicated union of
the constituents' varying parameter identities preserving first-seen order:
it has no duplicates, contains exactly the identities occurring in the
constituents' lists, is ordered by first occurrence in their concatenation,
and its length is the number of distinct varying identities (not the sum of
the constituents' counts).  Writing a value through a shared identity is
visible to every Structure holding that identity: after the write, every
Structure's view reads the new value at each handle equal to the written
identity and the old value elsewhere. -/
theorem globalObjective_varyingParameters_spec (a : Arena) (g : GlobalObjective)
    (i : ParamId) (v : ℚ) (s : Structure) (hi : i < a.length) :
    (g.varyingParameters a).Nodup
  ∧ (∀ p, p ∈ g.varyingParameters a ↔
      p ∈ (g.objectives.map (Objective.varyingParameters a)).flatten)
  ∧ (g.varyingParameters a).Pairwise (fun p1 p2 =>
      ((g.objectives.map (Objective.varyingParameters a)).flatten).indexOf p1
        < ((g.objectives.map (Objective.varyingParameters a)).flatten).indexOf p2)
  ∧ (g.varyingParameters a).length
      = ((g.objectives.map (Objective.varyingParameters a)).flatten).toFinset.card
  ∧ s.values (a.setValue i v)
      = s.paramIds.map (fun j => if j = i then v else a.valueOf j) :=
  ⟨dedupKeepFirst_nodup _,
   fun p => dedupKeepFirst_mem _ p,
   dedupKeepFirst_pairwise _,
   dedupKeepFirst_length_card _,
   setValue_visible a i v hi s⟩

/-- C1 witness: on the bilayer-style global objective, the varying list is
the six distinct identities `[15, 16, 6, 7, 11, 18]` although the
constituents together declare nine varying handles (the shared sio2
thickness, sio2 roughness and solvent roughness are counted once), and a
write through the shared identity 6 is visible to the hdmix structure. -/
theorem globalObjective_varyingParameters_spec_witness :
    (6 : Nat) < exArena.length
  ∧ exGlobal.varyingParameters exArena = [15, 16, 6, 7, 11, 18]
  ∧ ((exGlobal.objectives.map (Objective.varyingParameters exArena)).flatten).length = 9
  ∧ ((exGlobal.varyingParameters exArena).Nodup
  ∧ (∀ p, p ∈ exGlobal.varyingParameters exArena ↔
      p ∈ (exGlobal.objectives.map (Objective.varyingParameters exArena)).flatten)
  ∧ (exGlobal.varyingParameters exArena).Pairwise (fun p1 p2 =>
      ((exGlobal.objectives.map (Objective.varyingParameters exArena)).flatten).indexOf p1
        < ((exGlobal.objectives.map (Objective.varyingParameters exArena)).flatten).indexOf p2)
  ∧ (exGlobal.varyingParameters exArena).length
      = ((exGlobal.objectives.map (Objective.varyingParameters exArena)).flatten).toFinset.card
  ∧ exStructHdmix.values (exArena.setValue 6 42)
      = exStructHdmix.paramIds.map (fun j => if j = 6 then 42 else exArena.valueOf j)) := by
  refine ⟨by decide, ?_, by decide,
    globalObjective_varyingParameters_spec exArena exGlobal 6 42 exStructHdmix (by decide)⟩
  simp [exGlobal, exObjD2o, exObjHdmix, exStructD2o, exStructHdmix, exArena,
    GlobalObjective.varyingParameters, Objective.varyingParameters, Objective.paramIds,
    ReflectModel.paramIds, Structure.paramIds, Layer.paramIds, Arena.isVarying,
    Arena.paramAt, dedupKeepFirst]

/-! ## Optimizer: bounds invariant and write-back -/

theorem randFrac_nonneg (s : Nat) : 0 ≤ randFrac s := by
  unfold randFrac
  positivity

theorem randFrac_le_one (s : Nat) : randFrac s ≤ 1 := by
  unfold randFrac
  rw [div_le_one (by norm_num)]
  have h : (s % 65536 : Nat) < 65536 := Nat.mod_lt _ (by norm_num)
  exact_mod_cast le_of_lt h

theorem clip_mem (lo hi x : ℚ) (h : lo ≤ hi) :
    lo ≤ clip lo hi x ∧ clip lo hi x ≤ hi := by
  unfold clip
  constructor
  · exact le_min h (le_max_left lo x)
  · exact min_le_left hi _

theorem clipVec_inRect : ∀ (lows his xs : List ℚ),
    List.Forall₂ (· ≤ ·) lows his → inRect lows his (clipVec lows his xs) := by
  intro lows
  induction lows with
  | nil => intro his xs h; cases his <;> cases xs <;> simp [clipVec, inRect]
  | cons lo los ih =>
    intro his xs h
    cases his with
    | nil => cases h
    | cons hi his' =>
      cases xs with
      | nil => simp [clipVec, inRect]
      | cons x xs' =>
        rcases h with _ | ⟨hlh, h'⟩
        exact ⟨clip_mem lo hi x hlh, ih his' xs' h'⟩

theorem initVec_inRect : ∀ (lows his : List ℚ) (s : Nat),
    List.Forall₂ (· ≤ ·) lows his → inRect lows his (initVec lows his s).1 := by
  intro lows
  induction lows with
  | nil => intro his s h; cases his <;> simp [initVec, inRect]
  | cons lo los ih =>
    intro his s h
    cases his with
    | nil => cases h
    | cons hi his' =>
      rcases h with _ | ⟨hlh, h'⟩
      refine ⟨⟨?_, ?_⟩, ih his' (rngNext s) h'⟩
      · have := mul_nonneg (randFrac_nonneg (rngNext s)) (sub_nonneg.mpr hlh)
        linarith
      · nlinarith [randFrac_le_one (rngNext s), randFrac_nonneg (rngNext s),
          sub_nonneg.mpr hlh]

theorem initPop_inRect (lows his : List ℚ) (h : List.Forall₂ (· ≤ ·) lows his) :
    ∀ (n s : Nat) (v : List ℚ), v ∈ (initPop lows his n s).1 → inRect lows his v := by
  intro n
  induction n with
  | zero => intro s v hv; simp [initPop] at hv
  | succ n ih =>
    intro s v hv
    simp only [initPop, List.mem_cons] at hv
    rcases hv with hv | hv
    · exact hv ▸ initVec_inRect lows his s h
    · exact ih _ v hv

theorem crossVec_inRect (cr : ℚ) : ∀ (m : List ℚ) (lows his o : List ℚ) (s : Nat),
    inRect lows his m → inRect lows his o →
    inRect lows his (crossVec cr m o s).1 := by
  intro m
  induction m with
  | nil => intro lows his o s hm ho; cases lows <;> cases his <;> simp [crossVec, inRect]
  | cons c ms ih =>
    intro lows his o s hm ho
    cases o with
    | nil => cases lows <;> cases his <;> simp [crossVec, inRect]
    | cons d os =>
      cases lows with
      | nil => cases hm
      | cons lo los =>
        cases his with
        | nil => cases hm
        | cons hi his' =>
          obtain ⟨hc, hm'⟩ := hm
          obtain ⟨hd, ho'⟩ := ho
          refine ⟨?_, ih los his' os (rngNext s) hm' ho'⟩
          by_cases hrand : randFrac (rngNext s) < cr
          · simp only [if_pos hrand]
            exact hc
          · simp only [if_neg hrand]
            exact hd

theorem genStepAux_inRect (cost : List ℚ → ℚ) (lows his : List ℚ) (f cr : ℚ)
    (pop : List (List ℚ)) (hlh : List.Forall₂ (· ≤ ·) lows his) :
    ∀ (xs : List (List ℚ)) (s : Nat),
      (∀ v ∈ xs, inRect lows his v) →
      ∀ v ∈ (genStepAux cost lows his f cr pop xs s).1, inRect lows his v := by
  intro xs
  induction xs with
  | nil => intro s hxs v hv; simp [genStepAux] at hv
  | cons x xs' ih =>
    intro s hxs v hv
    simp only [genStepAux, List.mem_cons] at hv
    rcases hv with hv | hv
    · subst hv
      by_cases hsel : cost (trialFor lows his f cr pop x s).1 ≤ cost x
      · rw [if_pos hsel]
        show inRect lows his (trialFor lows his f cr pop x s).1
        unfold trialFor
        exact crossVec_inRect cr _ lows his x _
          (clipVec_inRect lows his _ hlh) (hxs x (by simp))
      · rw [if_neg hsel]
        exact hxs x (by simp)
    · exact ih _ (fun u hu => hxs u (by simp [hu])) v hv

theorem runGens_inRect (cost : List ℚ → ℚ) (lows his : List ℚ) (f cr : ℚ)
    (hlh : List.Forall₂ (· ≤ ·) lows his) :
    ∀ (g : Nat) (pop : List (List ℚ)) (s : Nat),
      (∀ v ∈ pop, inRect lows his v) →
      ∀ v ∈ (runGens cost lows his f cr g pop s).1, inRect lows his v := by
  intro g
  induction g with
  | zero => intro pop s hpop v hv; exact hpop v hv
  | succ g ih =>
    intro pop s hpop v hv
    exact ih _ _ (genStepAux_inRect cost lows his f cr pop hlh pop s hpop) v hv

theorem inRect_nil : ∀ (lows his : List ℚ), inRect lows his [] := by
  intro lows his
  cases lows <;> cases his <;> simp [inRect]

theorem bestOf_mem (cost : List ℚ → ℚ) : ∀ (pop : List (List ℚ)), pop ≠ [] →
    bestOf cost pop ∈ pop := by
  intro pop
  induction pop with
  | nil => intro h; exact absurd rfl h
  | cons x xs ih =>
    intro _
    cases xs with
    | nil => simp [bestOf]
    | cons y ys =>
      show (if cost x ≤ cost (bestOf cost (y :: ys)) then x else bestOf cost (y :: ys))
          ∈ x :: y :: ys
      by_cases hc : cost x ≤ cost (bestOf cost (y :: ys))
      · simp [hc]
      · rw [if_neg hc]
        exact List.mem_cons_of_mem x (ih (by simp))

theorem inRect_getD : ∀ (v lows his : List ℚ) (k : Nat),
    inRect lows his v → k < v.length →
    lows.getD k 0 ≤ v.getD k 0 ∧ v.getD k 0 ≤ his.getD k 0 := by
  intro v
  induction v with
  | nil => intro lows his k h hk; simp at hk
  | cons x xs ih =>
    intro lows his k h hk
    cases lows with
    | nil => cases h
    | cons lo los =>
      cases his with
      | nil => cases h
      | cons hi his' =>
        obtain ⟨⟨h1, h2⟩, h'⟩ := h
        cases k with
        | zero => simpa using ⟨h1, h2⟩
        | succ k' =>
          simp only [List.getD_cons_succ]
          exact ih los his' k' h' (by simpa using hk)

theorem getD_map_lt {α β : Type} (f : α → β) (l : List α) (k : Nat) (d : α)
    (d' : β) (hk : k < l.length) : (l.map f).getD k d' = f (l.getD k d) := by
  rw [List.getD_eq_getElem?_getD, List.getD_eq_getElem?_getD, List.getElem?_map,
    List.getElem?_eq_getElem hk]
  simp

theorem lowsOf_highsOf_forall₂ (a : Arena) : ∀ (ids : List ParamId),
    (∀ i ∈ ids, ∃ lo hi, (a.paramAt i).bounds = some (lo, hi) ∧ lo ≤ hi) →
    List.Forall₂ (· ≤ ·) (a.lowsOf ids) (a.highsOf ids) := by
  intro ids
  induction ids with
  | nil => intro h; simp [Arena.lowsOf, Arena.highsOf]
  | cons i is ih =>
    intro h
    obtain ⟨lo, hi, hb, hle⟩ := h i (by simp)
    refine List.Forall₂.cons ?_ (ih (fun j hj => h j (by simp [hj])))
    simp [Arena.lowsOf, Arena.highsOf, hb, hle]

/-- C7: every component of the best vector returned by the
differential-evolution optimizer lies within the corresponding varying
Parameter's declared bounds, for every random seed and configuration,
whenever every varying Parameter carries finite, well-ordered bounds. -/
theorem fit_best_within_bounds (cost : List ℚ → ℚ) (cfg : DEConfig) (a : Arena)
    (ids : List ParamId)
    (hb : ∀ i ∈ ids, ∃ lo hi, (a.paramAt i).bounds = some (lo, hi) ∧ lo ≤ hi) :
    ∀ k lo hi, k < ids.length →
      (a.paramAt (ids.getD k 0)).bounds = some (lo, hi) →
      k < (fit cost cfg a ids).2.length →
      lo ≤ (fit cost cfg a ids).2.getD k 0
        ∧ (fit cost cfg a ids).2.getD k 0 ≤ hi := by
  intro k lo hi hk hkb hkl
  have hlh : List.Forall₂ (· ≤ ·) (a.lowsOf ids) (a.highsOf ids) :=
    lowsOf_highsOf_forall₂ a ids hb
  have hbest : inRect (a.lowsOf ids) (a.highsOf ids) (fit cost cfg a ids).2 := by
    show inRect (a.lowsOf ids) (a.highsOf ids)
      (bestOf cost (runGens cost (a.lowsOf ids) (a.highsOf ids) cfg.mutF cfg.crossP
        cfg.gens (initPop (a.lowsOf ids) (a.highsOf ids) cfg.popSize cfg.seed).1
        (initPop (a.lowsOf ids) (a.highsOf ids) cfg.popSize cfg.seed).2).1)
    by_cases hne : (runGens cost (a.lowsOf ids) (a.highsOf ids) cfg.mutF cfg.crossP
        cfg.gens (initPop (a.lowsOf ids) (a.highsOf ids) cfg.popSize cfg.seed).1
        (initPop (a.lowsOf ids) (a.highsOf ids) cfg.popSize cfg.seed).2).1 = []
    · rw [hne]
      show inRect _ _ (bestOf cost [])
      exact inRect_nil _ _
    · exact runGens_inRect cost _ _ cfg.mutF cfg.crossP hlh cfg.gens _ _
        (fun v hv => initPop_inRect _ _ hlh cfg.popSize cfg.seed v hv) _
        (bestOf_mem cost _ hne)
  have hres := inRect_getD _ _ _ k hbest hkl
  have hlo : (a.lowsOf ids).getD k 0 = lo := by
    rw [Arena.lowsOf, getD_map_lt _ ids k 0 0 hk, hkb]
    rfl
  have hhi : (a.highsOf ids).getD k 0 = hi := by
    rw [Arena.highsOf, getD_map_lt _ ids k 0 0 hk, hkb]
    rfl
  rw [hlo, hhi] at hres
  exact hres

/-- C7 witness: on a one-parameter arena with bounds (0, 4), the best
vector of a two-generation run at seed 11 stays inside the bounds. -/
theorem fit_best_within_bounds_witness :
    (∀ i ∈ [0], ∃ lo hi, (exArena7.paramAt i).bounds = some (lo, hi) ∧ lo ≤ hi)
  ∧ (∀ k lo hi, k < ([0] : List ParamId).length →
      (exArena7.paramAt (([0] : List ParamId).getD k 0)).bounds = some (lo, hi) →
      k < (fit exCost exCfg2 exArena7 [0]).2.length →
      lo ≤ (fit exCost exCfg2 exArena7 [0]).2.getD k 0
        ∧ (fit exCost exCfg2 exArena7 [0]).2.getD k 0 ≤ hi) := by
  have hb : ∀ i ∈ [0], ∃ lo hi,
      (exArena7.paramAt i).bounds = some (lo, hi) ∧ lo ≤ hi := by
    intro i hi
    simp only [List.mem_singleton] at hi
    subst hi
    exact ⟨0, 4, rfl, by norm_num⟩
  exact ⟨hb, fit_best_within_bounds exCost exCfg2 exArena7 [0] hb⟩

theorem initVec_length : ∀ (lows his : List ℚ) (s : Nat),
    (initVec lows his s).1.length = min lows.length his.length := by
  intro lows
  induction lows with
  | nil => intro his s; cases his <;> simp [initVec]
  | cons lo los ih =>
    intro his s
    cases his with
    | nil => simp [initVec]
    | cons hi his' =>
      simp only [initVec, List.length_cons, ih]
      omega

theorem initPop_count (lows his : List ℚ) : ∀ (n s : Nat),
    (initPop lows his n s).1.length = n := by
  intro n
  induction n with
  | zero => intro s; rfl
  | succ n ih => intro s; simp only [initPop, List.length_cons, ih]

theorem initPop_mem_length (lows his : List ℚ) : ∀ (n s : Nat) (v : List ℚ),
    v ∈ (initPop lows his n s).1 → v.length = min lows.length his.length := by
  intro n
  induction n with
  | zero => intro s v hv; simp [initPop] at hv
  | succ n ih =>
    intro s v hv
    simp only [initPop, List.mem_cons] at hv
    rcases hv with hv | hv
    · rw [hv, initVec_length]
    · exact ih _ v hv

theorem mutateVec_length (f : ℚ) : ∀ (b x y : List ℚ),
    (mutateVec f b x y).length = min b.length (min x.length y.length) := by
  intro b
  induction b with
  | nil => intro x y; cases x <;> cases y <;> simp [mutateVec]
  | cons c bs ih =>
    intro x y
    cases x with
    | nil => simp [mutateVec]
    | cons u xs =>
      cases y with
      | nil => simp [mutateVec]
      | cons w ys =>
        simp only [mutateVec, List.length_cons, ih]
        omega

theorem clipVec_length : ∀ (lows his xs : List ℚ),
    (clipVec lows his xs).length = min lows.length (min his.length xs.length) := by
  intro lows
  induction lows with
  | nil => intro his xs; cases his <;> cases xs <;> simp [clipVec]
  | cons lo los ih =>
    intro his xs
    cases his with
    | nil => simp [clipVec]
    | cons hi his' =>
      cases xs with
      | nil => simp [clipVec]
      | cons x xs' =>
        simp only [clipVec, List.length_cons, ih]
        omega

theorem crossVec_length (cr : ℚ) : ∀ (m o : List ℚ) (s : Nat),
    (crossVec cr m o s).1.length = min m.length o.length := by
  intro m
  induction m with
  | nil => intro o s; cases o <;> simp [crossVec]
  | cons c ms ih =>
    intro o s
    cases o with
    | nil => simp [crossVec]
    | cons d os =>
      simp only [crossVec, List.length_cons, ih]
      omega

theorem pickMember_mem (pop : List (List ℚ)) (s : Nat) (h : pop ≠ []) :
    (pickMember pop s).1 ∈ pop := by
  have hlen : 0 < pop.length := List.length_pos.mpr h
  have hlt : rngNext s % pop.length < pop.length := Nat.mod_lt _ hlen
  show pop.getD (rngNext s % pop.length) [] ∈ pop
  rw [List.getD_eq_getElem?_getD, List.getElem?_eq_getElem hlt]
  exact List.getElem_mem _

theorem trialFor_length (lows his : List ℚ) (f cr : ℚ) (pop : List (List ℚ))
    (x : List ℚ) (s : Nat) (d : Nat) (hpop : ∀ v ∈ pop, v.length = d)
    (hne : pop ≠ []) (hl : lows.length = d) (hh : his.length = d)
    (hx : x.length = d) : (trialFor lows his f cr pop x s).1.length = d := by
  unfold trialFor
  rw [crossVec_length, clipVec_length, mutateVec_length, hl, hh, hx,
    hpop _ (pickMember_mem pop s hne),
    hpop _ (pickMember_mem pop (pickMember pop s).2 hne),
    hpop _ (pickMember_mem pop (pickMember pop (pickMember pop s).2).2 hne)]
  omega

theorem genStepAux_inv (cost : List ℚ → ℚ) (lows his : List ℚ) (f cr : ℚ)
    (pop : List (List ℚ)) (d : Nat) (hpop : ∀ v ∈ pop, v.length = d)
    (hne : pop ≠ []) (hl : lows.length = d) (hh : his.length = d) :
    ∀ (xs : List (List ℚ)) (s : Nat), (∀ v ∈ xs, v.length = d) →
      (genStepAux cost lows his f cr pop xs s).1.length = xs.length
    ∧ (∀ v ∈ (genStepAux cost lows his f cr pop xs s).1, v.length = d) := by
  intro xs
  induction xs with
  | nil => intro s hxs; exact ⟨rfl, by simp [genStepAux]⟩
  | cons x xs' ih =>
    intro s hxs
    have hx : x.length = d := hxs x (by simp)
    have ihr := ih (trialFor lows his f cr pop x s).2
      (fun v hv => hxs v (by simp [hv]))
    refine ⟨by simp only [genStepAux, List.length_cons, ihr.1], ?_⟩
    intro v hv
    simp only [genStepAux, List.mem_cons] at hv
    rcases hv with hv | hv
    · subst hv
      by_cases hsel : cost (trialFor lows his f cr pop x s).1 ≤ cost x
      · rw [if_pos hsel]
        exact trialFor_length lows his f cr pop x s d hpop hne hl hh hx
      · rw [if_neg hsel]
        exact hx
    · exact ihr.2 v hv

theorem runGens_inv (cost : List ℚ → ℚ) (lows his : List ℚ) (f cr : ℚ) (d : Nat)
    (hl : lows.length = d) (hh : his.length = d) :
    ∀ (g : Nat) (pop : List (List ℚ)) (s : Nat),
      (∀ v ∈ pop, v.length = d) → pop ≠ [] →
      (runGens cost lows his f cr g pop s).1.length = pop.length
    ∧ (∀ v ∈ (runGens cost lows his f cr g pop s).1, v.length = d) := by
  intro g
  induction g with
  | zero => intro pop s hpop hne; exact ⟨rfl, hpop⟩
  | succ g ih =>
    intro pop s hpop hne
    have hstep := genStepAux_inv cost lows his f cr pop d hpop hne hl hh pop s hpop
    have hne' : (genStepAux cost lows his f cr pop pop s).1 ≠ [] := by
      intro hcon
      rw [hcon] at hstep
      have := hstep.1
      simp at this
      exact hne (List.length_eq_zero.mp this.symm)
    have ihr := ih (genStepAux cost lows his f cr pop pop s).1
      (genStepAux cost lows his f cr pop pop s).2 hstep.2 hne'
    exact ⟨ihr.1.trans hstep.1, ihr.2⟩

theorem bestOf_length (cost : List ℚ → ℚ) (pop : List (List ℚ)) (d : Nat)
    (hpop : ∀ v ∈ pop, v.length = d) (hne : pop ≠ []) :
    (bestOf cost pop).length = d :=
  hpop _ (bestOf_mem cost pop hne)

theorem fit_best_length (cost : List ℚ → ℚ) (cfg : DEConfig) (a : Arena)
    (ids : List ParamId) (h3 : 1 ≤ cfg.popSize) :
    (fit cost cfg a ids).2.length = ids.length := by
  have hl : (a.lowsOf ids).length = ids.length := by simp [Arena.lowsOf]
  have hh : (a.highsOf ids).length = ids.length := by simp [Arena.highsOf]
  have hmem : ∀ v ∈ (initPop (a.lowsOf ids) (a.highsOf ids) cfg.popSize cfg.seed).1,
      v.length = ids.length := by
    intro v hv
    rw [initPop_mem_length _ _ _ _ v hv, hl, hh]
    omega
  have hne : (initPop (a.lowsOf ids) (a.highsOf ids) cfg.popSize cfg.seed).1 ≠ [] := by
    intro hcon
    have := initPop_count (a.lowsOf ids) (a.highsOf ids) cfg.popSize cfg.seed
    rw [hcon] at this
    simp at this
    omega
  have hrun := runGens_inv cost (a.lowsOf ids) (a.highsOf ids) cfg.mutF cfg.crossP
    ids.length hl hh cfg.gens _
    (initPop (a.lowsOf ids) (a.highsOf ids) cfg.popSize cfg.seed).2 hmem hne
  have hne' : (runGens cost (a.lowsOf ids) (a.highsOf ids) cfg.mutF cfg.crossP
      cfg.gens (initPop (a.lowsOf ids) (a.highsOf ids) cfg.popSize cfg.seed).1
      (initPop (a.lowsOf ids) (a.highsOf ids) cfg.popSize cfg.seed).2).1 ≠ [] := by
    intro hcon
    rw [hcon] at hrun
    have h0 := hrun.1
    simp at h0
    exact hne (List.length_eq_zero.mp h0.symm)
  exact bestOf_length cost _ ids.length hrun.2 hne'

theorem setValue_paramAt_ne (a : Arena) (i : ParamId) (v : ℚ) (j : ParamId)
    (h : j ≠ i) : (a.setValue i v).paramAt j = a.paramAt j := by
  simp only [Arena.setValue, Arena.paramAt]
  rw [List.getD_eq_getElem?_getD, List.getElem?_set_ne (fun hh => h hh.symm),
    ← List.getD_eq_getElem?_getD]

theorem setValue_valueOf_self (a : Arena) (i : ParamId) (v : ℚ) (hi : i < a.length) :
    (a.setValue i v).valueOf i = v := by
  simp only [Arena.valueOf, Arena.paramAt, Arena.setValue]
  rw [List.getD_eq_getElem?_getD, List.getElem?_set_self (by simpa using hi)]
  simp

theorem setValue_length (a : Arena) (i : ParamId) (v : ℚ) :
    (a.setValue i v).length = a.length := by
  simp [Arena.setValue]

theorem writeBack_paramAt_not_mem : ∀ (ids : List ParamId) (a : Arena)
    (vs : List ℚ) (j : ParamId), j ∉ ids →
    (a.writeBack ids vs).paramAt j = a.paramAt j := by
  intro ids
  induction ids with
  | nil => intro a vs j hj; cases vs <;> rfl
  | cons i is ih =>
    intro a vs j hj
    cases vs with
    | nil => rfl
    | cons v vs' =>
      have hji : j ≠ i := fun h => hj (by simp [h])
      have hjis : j ∉ is := fun h => hj (by simp [h])
      show ((a.setValue i v).writeBack is vs').paramAt j = a.paramAt j
      rw [ih _ vs' j hjis, setValue_paramAt_ne a i v j hji]

theorem writeBack_valueOf : ∀ (ids : List ParamId) (a : Arena) (vs : List ℚ),
    ids.Nodup → vs.length = ids.length → (∀ i ∈ ids, i < a.length) →
    ∀ k, k < ids.length →
      (a.writeBack ids vs).valueOf (ids.getD k 0) = vs.getD k 0 := by
  intro ids
  induction ids with
  | nil => intro a vs _ _ _ k hk; simp at hk
  | cons i is ih =>
    intro a vs hnd hlen hlt k hk
    cases vs with
    | nil => simp at hlen
    | cons v vs' =>
      cases k with
      | zero =>
        show ((a.setValue i v).writeBack is vs').valueOf i = v
        rw [Arena.valueOf, writeBack_paramAt_not_mem is _ vs' i
          (List.nodup_cons.mp hnd).1, ← Arena.valueOf]
        exact setValue_valueOf_self a i v (hlt i (by simp))
      | succ k' =>
        show ((a.setValue i v).writeBack is vs').valueOf (is.getD k' 0) = vs'.getD k' 0
        exact ih (a.setValue i v) vs' (List.nodup_cons.mp hnd).2
          (by simpa using hlen)
          (fun j hj => by rw [setValue_length]; exact hlt j (by simp [hj]))
          k' (by simpa using hk)

/-- C6: on completion, `fit` writes the best-found vector back into the
Parameters' values: the best vector has one component per varying
Parameter, for every position `k` the parameter with the `k`-th varying
identity holds exactly the `k`-th component of the best vector, and every
parameter not in the varying list (in particular every non-varying one) is
untouched. -/
theorem fit_writes_back (cost : List ℚ → ℚ) (cfg : DEConfig) (a : Arena)
    (ids : List ParamId) (h1 : ids.Nodup) (h2 : ∀ i ∈ ids, i < a.length)
    (h3 : 1 ≤ cfg.popSize) :
    (fit cost cfg a ids).2.length = ids.length
  ∧ (∀ k, k < ids.length →
      (fit cost cfg a ids).1.valueOf (ids.getD k 0)
        = (fit cost cfg a ids).2.getD k 0)
  ∧ (∀ j, j ∉ ids → (fit cost cfg a ids).1.paramAt j = a.paramAt j) := by
  have hlen := fit_best_length cost cfg a ids h3
  refine ⟨hlen, ?_, ?_⟩
  · intro k hk
    exact writeBack_valueOf ids a (fit cost cfg a ids).2 h1 hlen h2 k hk
  · intro j hj
    exact writeBack_paramAt_not_mem ids a (fit cost cfg a ids).2 j hj

/-- C6 witness: a single-member, zero-generation run on a two-parameter
arena (identity 0 varying, identity 1 fixed) writes the best vector into
parameter 0 and leaves parameter 1 untouched. -/
theorem fit_writes_back_witness :
    ([0] : List ParamId).Nodup
  ∧ (∀ i ∈ ([0] : List ParamId), i < exArena6.length)
  ∧ 1 ≤ exCfg.popSize
  ∧ ((fit exCost exCfg exArena6 [0]).2.length = ([0] : List ParamId).length
  ∧ (∀ k, k < ([0] : List ParamId).length →
      (fit exCost exCfg exArena6 [0]).1.valueOf (([0] : List ParamId).getD k 0)
        = (fit exCost exCfg exArena6 [0]).2.getD k 0)
  ∧ (∀ j, j ∉ ([0] : List ParamId) →
      (fit exCost exCfg exArena6 [0]).1.paramAt j = exArena6.paramAt j)) :=
  ⟨by decide, by decide, by decide,
   fit_writes_back exCost exCfg exArena6 [0] (by decide) (by decide) (by decide)⟩

/-- C5 witness: the bilayer notebook's area-per-molecule Parameter with its
bounds inverted to (65, 52) is rejected at construction. -/
theorem mkParameter_rejects_inverted_bounds_witness :
    (52 : ℚ) < 65
  ∧ (mkParameter 56 (some (65, 52)) true "area per molecule" 0
      = .error (.validation "Parameter bounds are inverted (low > high)")
  ∧ (∀ (v' : ℚ) (b : Option (ℚ × ℚ)) (vy' : Bool) (nm' : String) (pen' : ℚ)
      (p : Parameter), mkParameter v' b vy' nm' pen' = .ok p →
      ∀ lo' hi', p.bounds = some (lo', hi') → lo' ≤ hi')) :=
  ⟨by norm_num,
   mkParameter_rejects_inverted_bounds 56 65 52 true "area per molecule" 0 (by norm_num)⟩

end Fasem
